import Mathlib

/-!
Verification development for the DAG depth-resolution and result-cache core
of the gradio visualization harness.

The repository's sources contain the test suite
(`python/ray/serve/tests/test_gradio_visualization.py`) exercising this core:
depth computation over DAGs with shared sub-nodes (`_fetch_depths` driven by
`apply_recursive`) and cached retrieval of per-node execution results
(`get_object_refs_from_last_execute`, `_get_result`).  The implementation
itself is described by the specification; the definitions below embed the
data model and operations, and the theorems settle the specified properties
against them and against the concrete graphs built by the test fixtures.
-/

/-- Modelled from the spec: the Node Identity and Graph Model component.
Node identities are natural numbers (standing for the stable UUIDs assigned
at construction).  `children` returns the direct dependencies of a node in
their fixed construction order; `isInput` marks the root/input nodes (the
`InputNode` and the index/key accessor nodes derived from it); `nodes` lists
the identities of the graph's nodes. -/
structure Graph where
  nodes : List Nat
  children : Nat → List Nat
  isInput : Nat → Bool

/-- Maximum of a depth table over a list of node identities (0 when empty). -/
def childMax (t : Nat → Nat) (cs : List Nat) : Nat :=
  cs.foldl (fun a c => max a (t c)) 0

/-- Errors of the depth resolver: a structural error when a node is revisited
along its own active path stack, and exhaustion of the traversal fuel. -/
inductive DepthError where
  | outOfFuel
  | cycleDetected
deriving DecidableEq

/-- Modelled from the spec: the depth a node receives when it is recorded —
root/input nodes are fixed at the base depth 1, every other node gets one
plus the maximum of the recorded depths of the nodes it depends on (the
"parents" that reach it, in the spec's data-flow sense). -/
def newDepth (g : Graph) (t : Nat → Nat) (u : Nat) : Nat :=
  if g.isInput u then 1 else 1 + childMax t (g.children u)

/-- Record `d` for node `u` in the running table, keeping the maximum depth
seen so far for that identity across all paths. -/
def updTable (t : Nat → Nat) (u d : Nat) : Nat → Nat :=
  fun v => if v = u then max (t v) d else t v

/-- Modelled from the spec: the Depth Resolver traversal (the repository's
`GraphVisualizer._fetch_depths` applied through `DAGNode.apply_recursive` is
not among the sources, only its tests are).  Depth-first traversal of the
nodes in `us`: each node's dependencies are fully traversed before the node's
depth is recorded, the active path `stack` detects cycles (a structural
error), and `fuel` makes the traversal total. -/
def visitAll (g : Graph) : Nat → List Nat → List Nat → (Nat → Nat) → Except DepthError (Nat → Nat)
  | _, _, [], t => .ok t
  | 0, _, _ :: _, _ => .error .outOfFuel
  | fuel+1, stack, u :: us, t =>
    if u ∈ stack then .error .cycleDetected
    else
      match visitAll g fuel (u :: stack) (g.children u) t with
      | .error e => .error e
      | .ok t1 => visitAll g fuel stack us (updTable t1 u (newDepth g t1 u))

/-- Modelled from the spec: run the Depth Resolver from the terminal node
`root` with an empty active path and an all-zero running table. -/
def resolveDepths (g : Graph) (fuel root : Nat) : Except DepthError (Nat → Nat) :=
  visitAll g fuel [] [root] (fun _ => 0)

/-- The depth table produced by a resolver run (all-zero if the run failed). -/
def depthOf (g : Graph) (fuel root : Nat) : Nat → Nat :=
  fun v =>
    match resolveDepths g fuel root with
    | .ok t => t v
    | .error _ => 0

/-- Whether a resolver run succeeded. -/
def resOk : Except DepthError (Nat → Nat) → Bool
  | .ok _ => true
  | .error _ => false

/-- Whether a resolver run failed with the structural (cycle) error. -/
def isCycleError : Except DepthError (Nat → Nat) → Bool
  | .error .cycleDetected => true
  | _ => false

/-- Reachability along dependency (child) edges: `Reach g u v` holds when `v`
can be reached from `u` by following `children` references. -/
inductive Reach (g : Graph) : Nat → Nat → Prop where
  | refl (u : Nat) : Reach g u u
  | step {u c v : Nat} : c ∈ g.children u → Reach g c v → Reach g u v

/-- Reachability from some node of a list. -/
def ReachList (g : Graph) (us : List Nat) (v : Nat) : Prop :=
  ∃ u ∈ us, Reach g u v

/-- The spec's depth-table invariant at node `v`: the recorded depth equals
the base depth 1 for root/input nodes, and one plus the maximum of the
recorded depths of the node's dependencies otherwise. -/
def Fixed (g : Graph) (t : Nat → Nat) (v : Nat) : Prop :=
  t v = newDepth g t v

/-- A cycle reachable from `root`: some reachable node `v` has a dependency
`c` from which `v` is reachable again (so `v` lies on its own active path). -/
def HasCycleFrom (g : Graph) (root : Nat) : Prop :=
  ∃ v, Reach g root v ∧ ∃ c ∈ g.children v, Reach g c v

/-! ### Concrete graphs from the test fixtures

Node identities are fixed numberings of the stable UUIDs of the fixture
nodes. -/

/-- The `graph1` fixture: `0` the raw `InputNode`, `1` = `user_input[0]`,
`2` = `user_input["key"]` (accessor nodes), `3` = `f_node = f.bind(user_input[0])`,
`4` = `m = Model.bind(f_node)`, `5` = `dag = m.run.bind(user_input["key"])`. -/
def g1 : Graph where
  nodes := [0, 1, 2, 3, 4, 5]
  children := fun u =>
    if u = 1 then [0]
    else if u = 2 then [0]
    else if u = 3 then [1]
    else if u = 4 then [3]
    else if u = 5 then [4, 2]
    else []
  isInput := fun u => u == 0 || u == 1 || u == 2

/-- The `graph2` fixture: `0` the raw `InputNode`, `1` = `user_input[0]`,
`2` = `f_node = f.bind(user_input[0])`, `3` = `dag = f.bind(f_node, user_input[0])`.
The accessor node `1` is shared by the two consumers `2` and `3`. -/
def g2 : Graph where
  nodes := [0, 1, 2, 3]
  children := fun u =>
    if u = 1 then [0]
    else if u = 2 then [1]
    else if u = 3 then [2, 1]
    else []
  isInput := fun u => u == 0 || u == 1

/-- `g2` with the dependencies of the terminal node listed in the opposite
order, to exhibit independence from the traversal order. -/
def g2swap : Graph where
  nodes := [0, 1, 2, 3]
  children := fun u =>
    if u = 1 then [0]
    else if u = 2 then [1]
    else if u = 3 then [1, 2]
    else []
  isInput := fun u => u == 0 || u == 1

/-- The `graph3` fixture: `0` the raw `InputNode`, `1`–`3` the accessor nodes
`user_input[0]`, `user_input[1]`, `user_input[2]`, `4` = `b = Base.bind(1)`,
`5` = `m1 = Model.bind(1)`, `6` = `m2 = Model.bind(1)`,
`7` = `l_output = b.eval.bind(in0, in1)`, `8` = `m1_output = m1.forward.bind(l_output)`,
`9` = `m2_output = m2.forward.bind(in2)`,
`10` = `dag = combine.bind(m1_output, m2_output, l_output)`. -/
def g3 : Graph where
  nodes := [0, 1, 2, 3, 4, 5, 6, 7, 8, 9, 10]
  children := fun u =>
    if u = 1 then [0]
    else if u = 2 then [0]
    else if u = 3 then [0]
    else if u = 7 then [4, 1, 2]
    else if u = 8 then [5, 7]
    else if u = 9 then [6, 3]
    else if u = 10 then [8, 9, 7]
    else []
  isInput := fun u => u == 0 || u == 1 || u == 2 || u == 3

/-- A two-node cyclic graph: `0` and `1` each depend on the other. -/
def gCyc : Graph where
  nodes := [0, 1]
  children := fun u =>
    if u = 0 then [1]
    else if u = 1 then [0]
    else []
  isInput := fun _ => false

/-! ### Lemmas about `childMax` -/

theorem foldl_max_acc (t : Nat → Nat) : ∀ (cs : List Nat) (a : Nat),
    cs.foldl (fun x c => max x (t c)) a = max a (cs.foldl (fun x c => max x (t c)) 0) := by
  intro cs
  induction cs with
  | nil => intro a; simp
  | cons c cs ih =>
    intro a
    simp only [List.foldl_cons]
    rw [ih (max a (t c)), ih (max 0 (t c))]
    omega

theorem childMax_cons (t : Nat → Nat) (c : Nat) (cs : List Nat) :
    childMax t (c :: cs) = max (t c) (childMax t cs) := by
  unfold childMax
  simp only [List.foldl_cons]
  rw [foldl_max_acc t cs (max 0 (t c))]
  omega

theorem childMax_le_of_mem (t : Nat → Nat) {c : Nat} :
    ∀ {cs : List Nat}, c ∈ cs → t c ≤ childMax t cs := by
  intro cs
  induction cs with
  | nil => intro h; cases h
  | cons a as ih =>
    intro h
    rw [childMax_cons]
    rcases List.mem_cons.mp h with rfl | h'
    · omega
    · have := ih h'
      omega

theorem childMax_congr (t t' : Nat → Nat) : ∀ (cs : List Nat), (∀ c ∈ cs, t c = t' c) →
    childMax t cs = childMax t' cs := by
  intro cs
  induction cs with
  | nil => intro _; rfl
  | cons a as ih =>
    intro h
    rw [childMax_cons, childMax_cons, h a (List.mem_cons_self a as),
      ih (fun c hc => h c (List.mem_cons_of_mem a hc))]

theorem childMax_perm (t : Nat → Nat) {cs cs' : List Nat} (h : cs.Perm cs') :
    childMax t cs = childMax t cs' := by
  induction h with
  | nil => rfl
  | cons a _ ih => rw [childMax_cons, childMax_cons, ih]
  | swap a b l => rw [childMax_cons, childMax_cons, childMax_cons, childMax_cons]; omega
  | trans _ _ ih1 ih2 => rw [ih1, ih2]

/-! ### Lemmas about reachability and the depth invariant -/

theorem reach_trans {g : Graph} {a b c : Nat} (h1 : Reach g a b) (h2 : Reach g b c) :
    Reach g a c := by
  induction h1 with
  | refl u => exact h2
  | step hc _ ih => exact .step hc (ih h2)

theorem reach_child {g : Graph} {u v c : Nat} (h : Reach g u v) (hc : c ∈ g.children v) :
    Reach g u c :=
  reach_trans h (.step hc (.refl c))

theorem reach_in_closed {g : Graph} {S : Nat → Prop}
    (hS2 : ∀ v, S v → ∀ c ∈ g.children v, S c) {u v : Nat} (hu : S u) (h : Reach g u v) :
    S v := by
  induction h with
  | refl u => exact hu
  | step hc _ ih => exact ih (hS2 _ hu _ hc)

theorem reach_of_perm {g g' : Graph} (hP : ∀ v, (g'.children v).Perm (g.children v))
    {a b : Nat} (h : Reach g a b) : Reach g' a b := by
  induction h with
  | refl u => exact .refl u
  | step hc _ ih => exact .step ((hP _).mem_iff.mpr hc) ih

theorem Fixed_congr {g : Graph} {t t' : Nat → Nat} {v : Nat}
    (hv : t' v = t v) (hc : ∀ c ∈ g.children v, t' c = t c) (h : Fixed g t v) :
    Fixed g t' v := by
  unfold Fixed newDepth at h ⊢
  rw [hv, childMax_congr t' t (g.children v) hc]
  exact h

/-! ### Invariants of the traversal -/

theorem visitAll_stack_disjoint (g : Graph) :
    ∀ (fuel : Nat) (us stack : List Nat) (t t' : Nat → Nat),
      visitAll g fuel stack us t = .ok t' →
      ∀ s ∈ stack, ∀ u ∈ us, ¬ Reach g u s := by
  intro fuel
  induction fuel with
  | zero =>
    intro us stack t t' h s hs u hu
    cases us with
    | nil => cases hu
    | cons a as => exact Except.noConfusion h
  | succ fuel ih =>
    intro us stack t t' h s hs u hu hr
    cases us with
    | nil => cases hu
    | cons a as =>
      simp only [visitAll] at h
      by_cases hmem : a ∈ stack
      · rw [if_pos hmem] at h
        exact Except.noConfusion h
      rw [if_neg hmem] at h
      obtain ⟨t1, h1, h2⟩ : ∃ t1, visitAll g fuel (a :: stack) (g.children a) t = .ok t1 ∧
          visitAll g fuel stack as (updTable t1 a (newDepth g t1 a)) = .ok t' := by
        cases hc : visitAll g fuel (a :: stack) (g.children a) t with
        | error e => rw [hc] at h; exact Except.noConfusion h
        | ok t1 => rw [hc] at h; exact ⟨t1, rfl, h⟩
      rcases List.mem_cons.mp hu with rfl | hu'
      · cases hr with
        | refl => exact hmem hs
        | step hc hrc =>
          exact ih (g.children u) (u :: stack) t t1 h1 s (List.mem_cons_of_mem u hs) _ hc hrc
      · exact ih as stack _ t' h2 s hs u hu' hr

theorem visitAll_no_cycle (g : Graph) :
    ∀ (fuel : Nat) (us stack : List Nat) (t t' : Nat → Nat),
      visitAll g fuel stack us t = .ok t' →
      ∀ u ∈ us, ∀ v, Reach g u v → ∀ c ∈ g.children v, ¬ Reach g c v := by
  intro fuel
  induction fuel with
  | zero =>
    intro us stack t t' h u hu
    cases us with
    | nil => cases hu
    | cons a as => exact Except.noConfusion h
  | succ fuel ih =>
    intro us stack t t' h u hu v hr c hc hrc
    cases us with
    | nil => cases hu
    | cons a as =>
      simp only [visitAll] at h
      by_cases hmem : a ∈ stack
      · rw [if_pos hmem] at h
        exact Except.noConfusion h
      rw [if_neg hmem] at h
      obtain ⟨t1, h1, h2⟩ : ∃ t1, visitAll g fuel (a :: stack) (g.children a) t = .ok t1 ∧
          visitAll g fuel stack as (updTable t1 a (newDepth g t1 a)) = .ok t' := by
        cases hstep : visitAll g fuel (a :: stack) (g.children a) t with
        | error e => rw [hstep] at h; exact Except.noConfusion h
        | ok t1 => rw [hstep] at h; exact ⟨t1, rfl, h⟩
      rcases List.mem_cons.mp hu with rfl | hu'
      · cases hr with
        | refl =>
          exact visitAll_stack_disjoint g fuel (g.children u) (u :: stack) t t1 h1
            u (List.mem_cons_self u stack) c hc hrc
        | step hc0 hr0 =>
          exact ih (g.children u) (u :: stack) t t1 h1 _ hc0 v hr0 c hc hrc
      · exact ih as stack _ t' h2 u hu' v hr c hc hrc

theorem visitAll_main (g : Graph) :
    ∀ (fuel : Nat) (us stack : List Nat) (t t' : Nat → Nat) (S : Nat → Prop),
      visitAll g fuel stack us t = .ok t' →
      (∀ v, S v → Fixed g t v) →
      (∀ v, S v → ∀ c ∈ g.children v, S c) →
      (∀ v, ¬ S v → t v = 0) →
      (∀ v, ¬ ReachList g us v → t' v = t v) ∧
      (∀ v, S v → t' v = t v) ∧
      (∀ v, S v ∨ ReachList g us v → Fixed g t' v) := by
  intro fuel
  induction fuel with
  | zero =>
    intro us stack t t' S h hS1 hS2 hS3
    cases us with
    | nil =>
      simp only [visitAll, Except.ok.injEq] at h
      subst h
      exact ⟨fun v _ => rfl, fun v _ => rfl,
        fun v hv => hv.elim (hS1 v) (fun hr => absurd hr (by simp [ReachList]))⟩
    | cons a as => exact Except.noConfusion h
  | succ fuel ih =>
    intro us stack t t' S h hS1 hS2 hS3
    cases us with
    | nil =>
      simp only [visitAll, Except.ok.injEq] at h
      subst h
      exact ⟨fun v _ => rfl, fun v _ => rfl,
        fun v hv => hv.elim (hS1 v) (fun hr => absurd hr (by simp [ReachList]))⟩
    | cons u us =>
      simp only [visitAll] at h
      by_cases hmem : u ∈ stack
      · rw [if_pos hmem] at h
        exact Except.noConfusion h
      rw [if_neg hmem] at h
      obtain ⟨t1, h1, h2⟩ : ∃ t1, visitAll g fuel (u :: stack) (g.children u) t = .ok t1 ∧
          visitAll g fuel stack us (updTable t1 u (newDepth g t1 u)) = .ok t' := by
        cases hstep : visitAll g fuel (u :: stack) (g.children u) t with
        | error e => rw [hstep] at h; exact Except.noConfusion h
        | ok t1 => rw [hstep] at h; exact ⟨t1, rfl, h⟩
      have hNoBack : ∀ c ∈ g.children u, ¬ Reach g c u := fun c hc =>
        visitAll_stack_disjoint g fuel (g.children u) (u :: stack) t t1 h1
          u (List.mem_cons_self u stack) c hc
      have huNotReach : ¬ ReachList g (g.children u) u := fun hr => by
        obtain ⟨c, hc, hrc⟩ := hr
        exact hNoBack c hc hrc
      have huNotChild : u ∉ g.children u := fun hc => hNoBack u hc (Reach.refl u)
      obtain ⟨A1, A2, A3⟩ := ih (g.children u) (u :: stack) t t1 S h1 hS1 hS2 hS3
      by_cases hu : S u
      · -- the node was already finished: its recomputed depth is unchanged
        have hcm : childMax t1 (g.children u) = childMax t (g.children u) :=
          childMax_congr t1 t (g.children u) (fun c hc => A2 c (hS2 u hu c hc))
        have hnd : newDepth g t1 u = t1 u := by
          have hfix := hS1 u hu
          unfold Fixed at hfix
          unfold newDepth at hfix ⊢
          rw [hcm, ← hfix, A2 u hu]
        have ht2 : updTable t1 u (newDepth g t1 u) = t1 := by
          funext v
          simp only [updTable]
          by_cases hv : v = u
          · subst hv
            rw [hnd]
            simp
          · rw [if_neg hv]
        rw [ht2] at h2
        have hS2' : ∀ v, (S v ∨ Reach g u v) → S v := fun v hv =>
          hv.elim id (fun hr => reach_in_closed hS2 hu hr)
        obtain ⟨B1, B2, B3⟩ := ih us stack t1 t' (fun v => S v ∨ Reach g u v) h2
          (fun v hv => A3 v (Or.inl (hS2' v hv)))
          (fun v hv c hc => Or.inl (hS2 v (hS2' v hv) c hc))
          (fun v hv => by
            have hnS : ¬ S v := fun h' => hv (Or.inl h')
            have hnr : ¬ Reach g u v := fun h' => hv (Or.inr h')
            have hnrl : ¬ ReachList g (g.children u) v := fun hr => by
              obtain ⟨c, hc, hrc⟩ := hr
              exact hnr (Reach.step hc hrc)
            rw [A1 v hnrl]
            exact hS3 v hnS)
        refine ⟨?_, ?_, ?_⟩
        · intro v hv
          have hnu : ¬ Reach g u v := fun hr => hv ⟨u, List.mem_cons_self u us, hr⟩
          have hnus : ¬ ReachList g us v := fun hr => by
            obtain ⟨w, hw, hrw⟩ := hr
            exact hv ⟨w, List.mem_cons_of_mem u hw, hrw⟩
          rw [B1 v hnus]
          exact A1 v (fun hr => by
            obtain ⟨c, hc, hrc⟩ := hr
            exact hnu (Reach.step hc hrc))
        · intro v hv
          rw [B2 v (Or.inl hv)]
          exact A2 v hv
        · intro v hv
          apply B3
          rcases hv with hv | ⟨w, hw, hrw⟩
          · exact Or.inl (Or.inl hv)
          · rcases List.mem_cons.mp hw with rfl | hw'
            · exact Or.inl (Or.inr hrw)
            · exact Or.inr ⟨w, hw', hrw⟩
      · -- the node is freshly recorded at its computed depth
        have ht1u : t1 u = t u := A1 u huNotReach
        have htu0 : t u = 0 := hS3 u hu
        have ht2u : updTable t1 u (newDepth g t1 u) u = newDepth g t1 u := by
          show (if u = u then max (t1 u) (newDepth g t1 u) else t1 u) = newDepth g t1 u
          rw [if_pos rfl, ht1u, htu0]
          exact Nat.zero_max _
        have ht2other : ∀ v, v ≠ u → updTable t1 u (newDepth g t1 u) v = t1 v := fun v hv => by
          simp only [updTable, if_neg hv]
        have hndsame : newDepth g (updTable t1 u (newDepth g t1 u)) u = newDepth g t1 u := by
          have hcm : childMax (updTable t1 u (newDepth g t1 u)) (g.children u)
              = childMax t1 (g.children u) :=
            childMax_congr _ _ (g.children u)
              (fun c hc => ht2other c (fun hcu => huNotChild (hcu ▸ hc)))
          show (if g.isInput u then 1
              else 1 + childMax (updTable t1 u (newDepth g t1 u)) (g.children u))
            = newDepth g t1 u
          rw [hcm]
          rfl
        have hFix2 : ∀ v, (S v ∨ Reach g u v) → Fixed g (updTable t1 u (newDepth g t1 u)) v := by
          intro v hv
          by_cases hvu : v = u
          · subst hvu
            unfold Fixed
            rw [ht2u, hndsame]
          · have hv' : S v ∨ ReachList g (g.children u) v := by
              rcases hv with hv | hv
              · exact Or.inl hv
              · cases hv with
                | refl => exact absurd rfl hvu
                | step hc hrc => exact Or.inr ⟨_, hc, hrc⟩
            have hunc : u ∉ g.children v := by
              rcases hv' with hv' | ⟨c0, hc0, hrc0⟩
              · intro hcu
                exact hu (hS2 v hv' u hcu)
              · intro hcu
                exact hNoBack c0 hc0 (reach_trans hrc0 (Reach.step hcu (Reach.refl u)))
            exact Fixed_congr (ht2other v hvu)
              (fun c hc => ht2other c (fun hcu => hunc (hcu ▸ hc)))
              (A3 v hv')
        obtain ⟨B1, B2, B3⟩ := ih us stack (updTable t1 u (newDepth g t1 u)) t'
          (fun v => S v ∨ Reach g u v) h2
          hFix2
          (fun v hv c hc => hv.elim (fun hs => Or.inl (hS2 v hs c hc))
            (fun hr => Or.inr (reach_child hr hc)))
          (fun v hv => by
            have hnS : ¬ S v := fun h' => hv (Or.inl h')
            have hnr : ¬ Reach g u v := fun h' => hv (Or.inr h')
            have hvu : v ≠ u := fun h' => hnr (by rw [h']; exact Reach.refl u)
            have hnrl : ¬ ReachList g (g.children u) v := fun hr => by
              obtain ⟨c, hc, hrc⟩ := hr
              exact hnr (Reach.step hc hrc)
            rw [ht2other v hvu, A1 v hnrl]
            exact hS3 v hnS)
        refine ⟨?_, ?_, ?_⟩
        · intro v hv
          have hnu : ¬ Reach g u v := fun hr => hv ⟨u, List.mem_cons_self u us, hr⟩
          have hvu : v ≠ u := fun h' => hnu (by rw [h']; exact Reach.refl u)
          have hnus : ¬ ReachList g us v := fun hr => by
            obtain ⟨w, hw, hrw⟩ := hr
            exact hv ⟨w, List.mem_cons_of_mem u hw, hrw⟩
          rw [B1 v hnus, ht2other v hvu]
          exact A1 v (fun hr => by
            obtain ⟨c, hc, hrc⟩ := hr
            exact hnu (Reach.step hc hrc))
        · intro v hv
          have hvu : v ≠ u := fun h' => hu (h' ▸ hv)
          rw [B2 v (Or.inl hv), ht2other v hvu]
          exact A2 v hv
        · intro v hv
          apply B3
          rcases hv with hv | ⟨w, hw, hrw⟩
          · exact Or.inl (Or.inl hv)
          · rcases List.mem_cons.mp hw with rfl | hw'
            · exact Or.inl (Or.inr hrw)
            · exact Or.inr ⟨w, hw', hrw⟩

theorem resolveDepths_fixed {g : Graph} {fuel root : Nat} {t : Nat → Nat}
    (h : resolveDepths g fuel root = .ok t) :
    (∀ v, Reach g root v → Fixed g t v) ∧ (∀ v, ¬ Reach g root v → t v = 0) := by
  obtain ⟨C1, _, C3⟩ := visitAll_main g fuel [root] [] (fun _ => 0) t (fun _ => False) h
    (fun v hv => hv.elim) (fun v hv => hv.elim) (fun v _ => rfl)
  constructor
  · intro v hv
    exact C3 v (Or.inr ⟨root, List.mem_singleton.mpr rfl, hv⟩)
  · intro v hv
    refine C1 v (fun hr => ?_)
    obtain ⟨w, hw, hrw⟩ := hr
    rw [List.mem_singleton.mp hw] at hrw
    exact hv hrw

theorem resolveDepths_acyclic {g : Graph} {fuel root : Nat} {t : Nat → Nat}
    (h : resolveDepths g fuel root = .ok t) :
    ∀ v, Reach g root v → ∀ c ∈ g.children v, ¬ Reach g c v :=
  fun v hv => visitAll_no_cycle g fuel [root] [] (fun _ => 0) t h
    root (List.mem_singleton.mpr rfl) v hv

theorem depthOf_eq {g : Graph} {fuel root : Nat} {t : Nat → Nat}
    (h : resolveDepths g fuel root = .ok t) : depthOf g fuel root = t := by
  funext v
  unfold depthOf
  rw [h]

theorem resOk_exists {x : Except DepthError (Nat → Nat)} (h : resOk x = true) :
    ∃ t, x = .ok t := by
  cases x with
  | ok t => exact ⟨t, rfl⟩
  | error e => exact Bool.noConfusion h

theorem depth_unique {g g' : Graph} {root : Nat} {t t' : Nat → Nat}
    (hI : g'.isInput = g.isInput)
    (hP : ∀ v, (g'.children v).Perm (g.children v))
    (ht : ∀ v, Reach g root v → Fixed g t v)
    (ht' : ∀ v, Reach g' root v → Fixed g' t' v) :
    ∀ v, Reach g root v → t v = t' v := by
  suffices H : ∀ n v, Reach g root v → t v = n → t v = t' v by
    intro v hv
    exact H (t v) v hv rfl
  intro n
  induction n using Nat.strong_induction_on with
  | _ n ihn =>
    intro v hv hn
    have hv' : Reach g' root v := reach_of_perm hP hv
    have hf := ht v hv
    have hf' := ht' v hv'
    unfold Fixed newDepth at hf hf'
    rw [hI] at hf'
    by_cases hin : g.isInput v
    · rw [if_pos hin] at hf hf'
      rw [hf, hf']
    · rw [if_neg hin] at hf hf'
      have hcm : childMax t' (g'.children v) = childMax t' (g.children v) :=
        childMax_perm t' (hP v)
      have hcc : childMax t' (g.children v) = childMax t (g.children v) := by
        refine childMax_congr t' t (g.children v) (fun c hc => ?_)
        have hrc : Reach g root c := reach_child hv hc
        have hlt : t c < t v := by
          rw [hf]
          have := childMax_le_of_mem t hc
          omega
        exact (ihn (t c) (by omega) c hrc rfl).symm
      rw [hf, hf', hcm, hcc]

/-! ### Result Cache and Dispatcher

The repository's implementation of this component (`DAGNode.execute` with
`_ray_cache_refs`, `get_object_refs_from_last_execute`, and
`GraphVisualizer._send_request` / `_get_result`) is not among the sources,
only its tests are; it is modelled from the spec below. -/

/-- Modelled from the spec: the value one node produces when the graph is
executed against concrete input values — an input node yields its supplied
input value, any other node applies its operation `op` to the values
produced by its dependencies.  `fuel` bounds the recursion depth. -/
def evalNode (g : Graph) (op : Nat → List Int → Int) (iv : Nat → Int) : Nat → Nat → Int
  | 0, _ => 0
  | fuel+1, u =>
    if g.isInput u then iv u
    else op u ((g.children u).map fun c => evalNode g op iv fuel c)

/-- Modelled from the spec: an execution handle's result cache, a mapping
from node identity to the value resolved for that node in this execution
(`none` for identities absent from the executed graph). -/
structure Handle where
  cache : Nat → Option Int

/-- Error reported by `resultFor` for an identity absent from the graph. -/
inductive DispatchError where
  | unknownNode
deriving DecidableEq

/-- Observable dispatcher state: how many executions have been triggered. -/
structure SysState where
  execCount : Nat
deriving DecidableEq

/-- Modelled from the spec: `submit(graph, inputs)` triggers exactly one
execution of the whole graph through the execution runtime (counted in the
state) and returns a handle whose result cache maps every node identity of
the graph to that node's resolved value. -/
def submit (g : Graph) (op : Nat → List Int → Int) (iv : Nat → Int) (s : SysState) :
    Handle × SysState :=
  (⟨fun nid => if nid ∈ g.nodes then some (evalNode g op iv (g.nodes.length + 1) nid) else none⟩,
   ⟨s.execCount + 1⟩)

/-- Modelled from the spec: `result_for(handle, nodeID)` returns the cached
value for a resolved node identity, and fails synchronously with the
unknown-identity error when the identity is absent from the handle's graph.
It never touches the execution runtime (the state is returned unchanged). -/
def resultFor (h : Handle) (nid : Nat) (s : SysState) : Except DispatchError Int × SysState :=
  (match h.cache nid with
   | some v => .ok v
   | none => .error .unknownNode, s)

/-- Execution semantics of the `graph1` fixture's non-input nodes:
`f(x) = x` at node `3`, `m.run(x) = x` at node `5` (the method-call node's
dependencies are `[m, user_input["key"]]`, and `run` returns its argument,
the second dependency's value). -/
def g1op : Nat → List Int → Int := fun u vals =>
  if u = 3 then vals.getD 0 0
  else if u = 5 then vals.getD 1 0
  else 0

/-- Input values of the `graph1` execution in the tests: `user_input[0] = 1`
and `user_input["key"] = 2`. -/
def g1iv : Nat → Int := fun u =>
  if u = 1 then 1 else if u = 2 then 2 else 0

example : depthOf g1 100 5 1 = 1 ∧ depthOf g1 100 5 2 = 1 ∧
    depthOf g1 100 5 3 = 2 ∧ depthOf g1 100 5 4 = 3 ∧ depthOf g1 100 5 5 = 4 := by
  decide

example : depthOf g2 100 3 1 = 1 ∧ depthOf g2 100 3 2 = 2 ∧ depthOf g2 100 3 3 = 3 := by
  decide

example : depthOf g3 100 10 1 = 1 ∧ depthOf g3 100 10 7 = 2 ∧ depthOf g3 100 10 9 = 2 ∧
    depthOf g3 100 10 8 = 3 ∧ depthOf g3 100 10 10 = 4 := by
  decide

example : isCycleError (resolveDepths gCyc 10 0) = true := by decide

example : resOk (resolveDepths g2swap 100 3) = true ∧ depthOf g2swap 100 3 3 = 3 := by decide

/-! ### Claim theorems -/

/-- C1: for every DAG in which a node is shared by multiple parents reached
at different depths, the depth the resolver records for any reachable
non-input node equals 1 plus the maximum of the recorded depths of the
nodes that reach it (its "parents" in the spec's data-flow sense, i.e. its
dependencies), and the recorded depths are independent of the order in
which those dependencies are traversed: a resolver run over the same graph
with the dependency lists permuted produces the same depth for every
reachable node. -/
theorem depth_shared_node_parent_max_order_independent
    (g g' : Graph) (fuel fuel' root : Nat)
    (hok : resOk (resolveDepths g fuel root) = true)
    (hok' : resOk (resolveDepths g' fuel' root) = true)
    (hI : g'.isInput = g.isInput)
    (hP : ∀ v, (g'.children v).Perm (g.children v)) :
    ∀ v, Reach g root v →
      (g.isInput v = false →
        depthOf g fuel root v = 1 + childMax (depthOf g fuel root) (g.children v)) ∧
      depthOf g' fuel' root v = depthOf g fuel root v := by
  obtain ⟨t, ht⟩ := resOk_exists hok
  obtain ⟨t', ht'⟩ := resOk_exists hok'
  rw [depthOf_eq ht, depthOf_eq ht']
  have hfix := (resolveDepths_fixed ht).1
  have hfix' := (resolveDepths_fixed ht').1
  intro v hv
  constructor
  · intro hni
    have hfv := hfix v hv
    unfold Fixed newDepth at hfv
    rw [hni] at hfv
    simpa using hfv
  · exact (depth_unique hI hP hfix hfix' v hv).symm

theorem depth_shared_node_parent_max_order_independent_witness :
    resOk (resolveDepths g2 30 3) = true ∧
    depthOf g2 30 3 3 = 1 + childMax (depthOf g2 30 3) (g2.children 3) ∧
    depthOf g2swap 30 3 3 = depthOf g2 30 3 3 ∧
    depthOf g2 30 3 3 = 3 := by
  have hperm : ∀ v, (g2swap.children v).Perm (g2.children v) := by
    intro v
    show (if v = 1 then [0] else if v = 2 then [1] else if v = 3 then [1, 2] else []).Perm
      (if v = 1 then [0] else if v = 2 then [1] else if v = 3 then [2, 1] else [])
    split_ifs
    · exact List.Perm.refl _
    · exact List.Perm.refl _
    · exact List.Perm.swap 2 1 []
    · exact List.Perm.refl _
  have h := depth_shared_node_parent_max_order_independent g2 g2swap 30 30 3
    (by decide) (by decide) rfl hperm 3 (Reach.refl 3)
  exact ⟨by decide, h.1 (by decide), h.2, by decide⟩

/-- C2: for every graph on which the resolver succeeds (in particular every
DAG without shared nodes), the produced depth table satisfies
depth(node) = 1 + max over the node's dependencies of their depths for
every reachable non-input node, and every reachable root/input node has
depth exactly 1. -/
theorem depth_table_root_and_parent_max
    (g : Graph) (fuel root : Nat)
    (hok : resOk (resolveDepths g fuel root) = true) :
    ∀ v, Reach g root v →
      (g.isInput v = true → depthOf g fuel root v = 1) ∧
      (g.isInput v = false →
        depthOf g fuel root v = 1 + childMax (depthOf g fuel root) (g.children v)) := by
  obtain ⟨t, ht⟩ := resOk_exists hok
  rw [depthOf_eq ht]
  have hfix := (resolveDepths_fixed ht).1
  intro v hv
  have hfv := hfix v hv
  unfold Fixed newDepth at hfv
  constructor
  · intro hin
    rw [hin] at hfv
    simpa using hfv
  · intro hni
    rw [hni] at hfv
    simpa using hfv

theorem depth_table_root_and_parent_max_witness :
    resOk (resolveDepths g1 100 5) = true ∧
    depthOf g1 100 5 1 = 1 ∧
    depthOf g1 100 5 3 = 1 + childMax (depthOf g1 100 5) (g1.children 3) := by
  refine ⟨by decide, ?_, ?_⟩
  · have h := depth_table_root_and_parent_max g1 100 5 (by decide) 1
      (@Reach.step g1 5 4 1 (by decide)
        (@Reach.step g1 4 3 1 (by decide)
          (@Reach.step g1 3 1 1 (by decide) (Reach.refl 1))))
    exact h.1 (by decide)
  · have h := depth_table_root_and_parent_max g1 100 5 (by decide) 3
      (@Reach.step g1 5 4 3 (by decide)
        (@Reach.step g1 4 3 3 (by decide) (Reach.refl 3)))
    exact h.2 (by decide)

/-- C3: on the three-input `graph3` fixture (with all transform weights 1)
the resolver records depth 1 for every input accessor, depth 2 for
`l_output` (the value of `b.eval`) and `m2_output`, depth 3 for
`m1_output`, and depth 4 for the terminal `combine` node. -/
theorem graph3_depth_table :
    depthOf g3 100 10 1 = 1 ∧ depthOf g3 100 10 2 = 1 ∧ depthOf g3 100 10 3 = 1 ∧
    depthOf g3 100 10 7 = 2 ∧ depthOf g3 100 10 9 = 2 ∧
    depthOf g3 100 10 8 = 3 ∧ depthOf g3 100 10 10 = 4 := by
  decide

/-- C4: for every graph containing a cycle reachable from the start node,
depth resolution never succeeds for any fuel — it terminates with an error
(the resolver is a total function) rather than looping or silently
succeeding — and on a concrete cyclic graph it reports the structural
cycle error. -/
theorem cyclic_graph_resolution_fails :
    (∀ (g : Graph) (root : Nat), HasCycleFrom g root →
      ∀ fuel, ∃ e, resolveDepths g fuel root = .error e) ∧
    isCycleError (resolveDepths gCyc 10 0) = true := by
  constructor
  · intro g root hcyc fuel
    obtain ⟨v, hv, c, hc, hrc⟩ := hcyc
    cases hres : resolveDepths g fuel root with
    | error e => exact ⟨e, rfl⟩
    | ok t => exact absurd hrc (resolveDepths_acyclic hres v hv c hc)
  · decide

theorem cyclic_graph_resolution_fails_witness :
    HasCycleFrom gCyc 0 ∧ ∃ e, resolveDepths gCyc 10 0 = .error e := by
  have hcyc : HasCycleFrom gCyc 0 :=
    ⟨0, Reach.refl 0, 1, by decide, @Reach.step gCyc 1 0 0 (by decide) (Reach.refl 0)⟩
  exact ⟨hcyc, cyclic_graph_resolution_fails.1 gCyc 0 hcyc 10⟩

/-- C5: once a node's value is resolved in a handle's cache, querying
`result_for` a second time returns the identical value as the first query,
and neither query triggers any additional execution (the execution count of
the state is unchanged through both queries). -/
theorem result_for_idempotent_no_reexecution
    (h : Handle) (nid : Nat) (s : SysState) (v : Int)
    (hc : h.cache nid = some v) :
    (resultFor h nid s).1 = .ok v ∧
    (resultFor h nid ((resultFor h nid s).2)).1 = .ok v ∧
    ((resultFor h nid ((resultFor h nid s).2)).2).execCount = s.execCount := by
  simp [resultFor, hc]

theorem result_for_idempotent_no_reexecution_witness :
    (submit g1 g1op g1iv ⟨0⟩).1.cache 3 = some 1 ∧
    (resultFor (submit g1 g1op g1iv ⟨0⟩).1 3 ⟨1⟩).1 = .ok 1 := by
  refine ⟨rfl, ?_⟩
  exact (result_for_idempotent_no_reexecution (submit g1 g1op g1iv ⟨0⟩).1 3 ⟨1⟩ 1 rfl).1

/-- C6: for a handle obtained from `submit`, querying `result_for` with a
node identity absent from the submitted graph fails synchronously with the
unknown-identity error, leaves the state unchanged, and does not affect the
result any other caller obtains for any identity. -/
theorem result_for_unknown_identity_fails_fast
    (g : Graph) (op : Nat → List Int → Int) (iv : Nat → Int) (s0 s : SysState) (nid : Nat)
    (hnid : nid ∉ g.nodes) :
    (resultFor (submit g op iv s0).1 nid s).1 = .error .unknownNode ∧
    (resultFor (submit g op iv s0).1 nid s).2 = s ∧
    (∀ nid' s', (resultFor (submit g op iv s0).1 nid'
        ((resultFor (submit g op iv s0).1 nid s).2)).1
      = (resultFor (submit g op iv s0).1 nid' s').1) := by
  have hcache : (submit g op iv s0).1.cache nid = none := by
    simp [submit, hnid]
  refine ⟨?_, rfl, ?_⟩
  · simp [resultFor, hcache]
  · intro nid' s'
    rfl

theorem result_for_unknown_identity_fails_fast_witness :
    (99 ∉ g1.nodes) ∧
    (resultFor (submit g1 g1op g1iv ⟨0⟩).1 99 ⟨1⟩).1 = .error .unknownNode := by
  refine ⟨by decide, ?_⟩
  exact (result_for_unknown_identity_fails_fast g1 g1op g1iv ⟨0⟩ ⟨1⟩ 99 (by decide)).1

/-- C7: after submitting the two-input `graph1` fixture with inputs
(1, 2), `result_for` on the stable identity of `f_node` (node 3) returns 1
and `result_for` on the terminal node's identity (node 5) returns 2. -/
theorem graph1_execution_result_values :
    (resultFor (submit g1 g1op g1iv ⟨0⟩).1 3 ⟨1⟩).1 = .ok 1 ∧
    (resultFor (submit g1 g1op g1iv ⟨0⟩).1 5 ⟨1⟩).1 = .ok 2 :=
  ⟨rfl, rfl⟩

/-- C8: the Depth Resolver is a deterministic function of the graph and its
child ordering — two runs on graphs with identical node lists, identical
child orderings and identical input markings produce identical depth
tables. -/
theorem depth_resolver_deterministic (g g' : Graph) (fuel root : Nat)
    (hn : g.nodes = g'.nodes) (hc : g.children = g'.children) (hi : g.isInput = g'.isInput) :
    resolveDepths g fuel root = resolveDepths g' fuel root := by
  obtain ⟨n1, c1, i1⟩ := g
  obtain ⟨n2, c2, i2⟩ := g'
  simp only at hn hc hi
  cases hn
  cases hc
  cases hi
  rfl

theorem depth_resolver_deterministic_witness :
    resolveDepths g1 100 5 = resolveDepths g1 100 5 :=
  depth_resolver_deterministic g1 g1 100 5 rfl rfl rfl

/-- C9: for a handle obtained from `submit`, the results of any number of
`result_for` calls for distinct node identities of the graph are exactly
the values those nodes produced in that execution, and a caller querying a
handle always observes the value from that handle's own execution (a handle
built from different inputs yields its own execution's values). -/
theorem concurrent_result_for_per_node_correct
    (g : Graph) (op : Nat → List Int → Int) (iv : Nat → Int) (s0 : SysState)
    (ids : List Nat) (s : SysState)
    (_hnd : ids.Nodup) (hmem : ∀ nid ∈ ids, nid ∈ g.nodes) :
    (ids.map fun nid => (resultFor (submit g op iv s0).1 nid s).1)
      = ids.map (fun nid => Except.ok (evalNode g op iv (g.nodes.length + 1) nid)) ∧
    (∀ (iv2 : Nat → Int) (s2 s' : SysState) (nid : Nat), nid ∈ ids →
      (resultFor (submit g op iv2 s2).1 nid s').1
        = .ok (evalNode g op iv2 (g.nodes.length + 1) nid)) := by
  have key : ∀ (iv' : Nat → Int) (s2 s' : SysState) (nid : Nat), nid ∈ g.nodes →
      (resultFor (submit g op iv' s2).1 nid s').1
        = .ok (evalNode g op iv' (g.nodes.length + 1) nid) := by
    intro iv' s2 s' nid hn
    simp [resultFor, submit, hn]
  constructor
  · have hall : ∀ (l : List Nat), (∀ nid ∈ l, nid ∈ g.nodes) →
        (l.map fun nid => (resultFor (submit g op iv s0).1 nid s).1)
          = l.map (fun nid => Except.ok (evalNode g op iv (g.nodes.length + 1) nid)) := by
      intro l
      induction l with
      | nil => intro _; rfl
      | cons a as ihl =>
        intro hl
        simp only [List.map_cons]
        rw [key iv s0 s a (hl a (List.mem_cons_self a as)),
          ihl (fun x hx => hl x (List.mem_cons_of_mem a hx))]
    exact hall ids hmem
  · intro iv2 s2 s' nid hnid
    exact key iv2 s2 s' nid (hmem nid hnid)

theorem concurrent_result_for_per_node_correct_witness :
    ([3, 5] : List Nat).Nodup ∧
    (([3, 5] : List Nat).map fun nid => (resultFor (submit g1 g1op g1iv ⟨0⟩).1 nid ⟨1⟩).1)
      = [Except.ok 1, Except.ok 2] := by
  refine ⟨by decide, ?_⟩
  have h := (concurrent_result_for_per_node_correct g1 g1op g1iv ⟨0⟩ [3, 5] ⟨1⟩
    (by decide) (by decide)).1
  rw [h]
  rfl

/-- C10: index/key accessor nodes derived from the single underlying input
node receive depth exactly 1, the same as a root: in `graph1` both
accessors `user_input[0]` and `user_input["key"]` (which share the one
underlying `InputNode`), in `graph2` the accessor shared by two consumers,
and in `graph3` all three accessors, are each recorded at depth 1. -/
theorem input_accessor_nodes_depth_one :
    depthOf g1 100 5 1 = 1 ∧ depthOf g1 100 5 2 = 1 ∧
    depthOf g2 100 3 1 = 1 ∧
    depthOf g3 100 10 1 = 1 ∧ depthOf g3 100 10 2 = 1 ∧ depthOf g3 100 10 3 = 1 := by
  decide
